import Mathlib

set_option maxHeartbeats 1000000

/-!
Verification of the wave-function-collapse map generator in `src/generation.rs`.

The Rust code is shallowly embedded: `ImageFragment` with its `new_from_image`,
`rotate`, `flip` and `is_overlapping` methods, the fragment-catalog extraction and
constraint construction of `Canvas::get_wave_function`, and the pixel-buffer
reconstruction of `Canvas::write`.  Machine integers (`u32`, `i8`, `usize`) are
modelled as `Nat` / `Int`; the generator only ever uses values far below the
overflow boundaries (fragment sizes of a few pixels, offsets in `{-1,0,1}`).
Imperative fill loops that write each destination cell exactly once are embedded
as `List.range`-comprehensions computing the same cell values; buffer mutation in
`Canvas::write` is embedded as explicit `List.set`-based state passing in a fold
over the same loop order.
-/

/-- RGBA pixel, the embedding of the Rust color type (an array of four `u8` channel
values); only equality of pixels is ever used. -/
abbrev Pixel : Type := Nat × Nat × Nat × Nat

/-- The background fill color `[0, 0, 128, 0]` that `Canvas::write` initializes its
output buffer with. -/
def bgPixel : Pixel := (0, 0, 128, 0)

/-- Embedding of `struct ImageFragment`: the RGBA color per height per width, i.e.
`pixels[w][h]`, intended outer length `width` and inner length `height`. -/
structure ImageFragment where
  pixels : List (List Pixel)
  width : Nat
  height : Nat
deriving DecidableEq

/-- Total pixel accessor `f.pixels[w][h]` (the Rust code only indexes in bounds; out
of bounds reads return defaults here). -/
def pget (f : ImageFragment) (w h : Nat) : Pixel := (f.pixels.getD w []).getD h bgPixel

/-- Pixel accessor for the `i8`-indexed arithmetic in `is_overlapping`; the loop
ranges there guarantee both indices are nonnegative. -/
def pgetI (f : ImageFragment) (w h : Int) : Pixel := pget f w.toNat h.toNat

/-- Well-formedness of a fragment: the pixel grid really is `width` columns of
`height` pixels.  Every fragment the Rust program constructs satisfies this. -/
def WF (f : ImageFragment) : Prop :=
  f.pixels.length = f.width ∧ ∀ col ∈ f.pixels, col.length = f.height

instance (f : ImageFragment) : Decidable (WF f) :=
  inferInstanceAs (Decidable (_ ∧ _))

/-- Embedding of the sample image (`DynamicImage`): dimensions plus the
`get_pixel` accessor. -/
structure SampleImage where
  width : Nat
  height : Nat
  pix : Nat → Nat → Pixel

/-- Embedding of `ImageFragment::new_from_image`: the fill loop writes
`pixels[pw][ph] = image.get_pixel(width_index + pw, height_index + ph)` exactly
once per cell of the `fragment_width × fragment_height` grid. -/
def ImageFragment.new_from_image (image : SampleImage) (width_index height_index fragment_width fragment_height : Nat) : ImageFragment where
  pixels := (List.range fragment_width).map fun pw =>
    (List.range fragment_height).map fun ph =>
      image.pix (width_index + pw) (height_index + ph)
  width := fragment_width
  height := fragment_height

/-- Embedding of `ImageFragment::rotate`: the destination grid has `height` columns
of `width` pixels, and the fill loop writes destination cell
`[(height-1)-h][w] := source [w][h]`, i.e. destination `[i][j] = source [j][(height-1)-i]`,
exactly once per destination cell. -/
def ImageFragment.rotate (f : ImageFragment) : ImageFragment where
  pixels := (List.range f.height).map fun i =>
    (List.range f.width).map fun j => pget f j (f.height - 1 - i)
  width := f.height
  height := f.width

/-- Embedding of `ImageFragment::flip`: dimensions unchanged, and the fill loop
writes destination cell `[(width-1)-w][h] := source [w][h]`, i.e. destination
`[i][j] = source [(width-1)-i][j]`, exactly once per destination cell. -/
def ImageFragment.flip (f : ImageFragment) : ImageFragment where
  pixels := (List.range f.width).map fun i =>
    (List.range f.height).map fun j => pget f (f.width - 1 - i) j
  width := f.width
  height := f.height

/-- The integer interval `[lo, hi)` as a list, embedding a Rust `lo..hi` loop over
signed integers. -/
def intRange (lo hi : Int) : List Int := (List.range (hi - lo).toNat).map fun i : Nat => lo + (i : Int)

/-- Embedding of `ImageFragment::is_overlapping`: scan the pixel region where the
two footprints intersect (bounds computed from `self`'s dimensions, as in the
source) and report whether no scanned pixel pair mismatches.  The early `break`
in the source only skips the rest of one row after a mismatch has been recorded,
so the returned boolean is exactly "every scanned pair is equal". -/
def ImageFragment.is_overlapping (self other : ImageFragment) (width_offset height_offset : Int) : Bool :=
  (intRange (max 0 height_offset) (min (self.height : Int) (height_offset + (self.height : Int)))).all
    fun self_height_index =>
      (intRange (max 0 width_offset) (min (self.width : Int) (width_offset + (self.width : Int)))).all
        fun self_width_index =>
          decide (pgetI self self_width_index self_height_index =
            pgetI other (self_width_index - width_offset) (self_height_index - height_offset))

/-- Embedding of the orientation-variant generation in `Canvas::get_wave_function`
(lines 160-191): the source mutates `image_fragment` in place, so each pushed
variant is obtained from the previous one. -/
def orientedList (is_reflection_permitted is_rotation_permitted : Bool) (base : ImageFragment) : List ImageFragment :=
  match is_reflection_permitted, is_rotation_permitted with
  | true, true =>
    [base, base.rotate, base.rotate.rotate, base.rotate.rotate.rotate,
     base.rotate.rotate.rotate.flip,
     base.rotate.rotate.rotate.flip.rotate,
     base.rotate.rotate.rotate.flip.rotate.rotate,
     base.rotate.rotate.rotate.flip.rotate.rotate.rotate]
  | true, false => [base, base.flip]
  | false, true => [base, base.rotate, base.rotate.rotate, base.rotate.rotate.rotate]
  | false, false => [base]

/-- The stream of all oriented fragments inserted into the catalog maps by the
extraction loops of `Canvas::get_wave_function` (lines 151-204), in loop order:
every window position contributes its orientation variants. -/
def fragmentStream (image : SampleImage) (fragment_width fragment_height : Nat) (is_reflection_permitted is_rotation_permitted : Bool) : List ImageFragment :=
  (List.range (image.height - (fragment_height - 1))).flatMap fun image_height_index =>
    (List.range (image.width - (fragment_width - 1))).flatMap fun image_width_index =>
      orientedList is_reflection_permitted is_rotation_permitted
        (ImageFragment.new_from_image image image_width_index image_height_index fragment_width fragment_height)

/-- The deduplicated fragment catalog (the contents of the `image_fragments`
hash set). -/
def catalogOf (image : SampleImage) (fragment_width fragment_height : Nat) (is_reflection_permitted is_rotation_permitted : Bool) : List ImageFragment :=
  (fragmentStream image fragment_width fragment_height is_reflection_permitted is_rotation_permitted).dedup

/-- The weight a fragment ends up with in `image_fragment_duplicates_total_per_image_fragment`:
it is bumped by one for every occurrence in the oriented extraction stream. -/
def weightOf (image : SampleImage) (fragment_width fragment_height : Nat) (is_reflection_permitted is_rotation_permitted : Bool) (f : ImageFragment) : Nat :=
  (fragmentStream image fragment_width fragment_height is_reflection_permitted is_rotation_permitted).count f

/-- Embedding of the permitted-state computation (lines 226-233): all catalog
fragments that overlap the root fragment at the given offset, in catalog order. -/
def permittedStates (catalog : List ImageFragment) (root : ImageFragment) (width_offset height_offset : Int) : List ImageFragment :=
  catalog.filter fun other => root.is_overlapping other width_offset height_offset

/-- The offsets for which the loops of lines 220-236 build a permitted-state list:
`width_offset` and `height_offset` range over `-1..=1` and the pairs skipped by
the filter (center and diagonals) produce nothing. -/
def offsetList : List (Int × Int) :=
  ([-1, 0, 1] : List Int).flatMap fun width_offset =>
    ([-1, 0, 1] : List Int).filterMap fun height_offset =>
      if height_offset = 0 ∧ width_offset = 0 ∨ height_offset.natAbs = 1 ∧ width_offset.natAbs = 1 then
        none
      else
        some (width_offset, height_offset)

/-- The node state collections built from a catalog (lines 214-256), flattened:
one record `(root fragment, offset, permitted fragments)` per root per kept
offset (uuids, which carry no information, are dropped). -/
def nodeStateCollections (catalog : List ImageFragment) :
    List (ImageFragment × (Int × Int) × List ImageFragment) :=
  catalog.flatMap fun root =>
    offsetList.map fun off => (root, off, permittedStates catalog root off.1 off.2)

/-- Embedding of the candidate-state map assignment per node (lines 310-329):
when `contains_ground` is set, the last grid row keeps exactly the weighted
fragments in the ground set and every other row keeps exactly those outside it;
otherwise every node keeps the full weight map. -/
def nodeCandidates (weights : List (ImageFragment × Nat)) (ground : List ImageFragment)
    (contains_ground : Bool) (grid_height node_height_index : Nat) : List (ImageFragment × Nat) :=
  match contains_ground with
  | true =>
    if node_height_index + 1 = grid_height then
      weights.filter fun p => decide (p.1 ∈ ground)
    else
      weights.filter fun p => decide (p.1 ∉ ground)
  | false => weights

/-- Embedding of the single-wrap periodic adjustment per axis (lines 283-296). -/
def wrapIndex (is_periodic : Bool) (n g : Int) : Int :=
  match is_periodic with
  | true => if n < 0 then n + g else if g ≤ n then n - g else n
  | false => n

/-- Embedding of the neighbor computation of lines 281-305: offset the node
coordinate, wrap each axis once when periodic, then keep the neighbor only if it
lies on the grid. -/
def neighborIndex (is_periodic : Bool) (gridW gridH x y dx dy : Int) : Option (Int × Int) :=
  let nx := wrapIndex is_periodic (x + dx) gridW
  let ny := wrapIndex is_periodic (y + dy) gridH
  if 0 ≤ nx ∧ nx < gridW ∧ 0 ≤ ny ∧ ny < gridH then some (nx, ny) else none

/-- Well-formedness of the output pixel buffer of `Canvas::write`: `W` columns of
`H` pixels.  Stated through `getD` so it composes with the `List.set` updates. -/
def BufWF (buf : List (List Pixel)) (W H : Nat) : Prop :=
  buf.length = W ∧ ∀ i < W, (buf.getD i []).length = H

instance (buf : List (List Pixel)) (W H : Nat) : Decidable (BufWF buf W H) :=
  inferInstanceAs (Decidable (_ ∧ _))

/-- Read of the output buffer: `pixels[w][h]`. -/
def getPix (buf : List (List Pixel)) (w h : Nat) : Pixel := (buf.getD w []).getD h bgPixel

/-- Write to the output buffer: `pixels[w][h] = c`, embedding Rust array-index
assignment as a functional update. -/
def setPix (buf : List (List Pixel)) (w h : Nat) (c : Pixel) : List (List Pixel) :=
  buf.set w ((buf.getD w []).set h c)

/-- Embedding of the full-block write of lines 394-398: for every pixel of the
chosen fragment, in source loop order, write it at the node origin plus its
fragment-local offset. -/
def writeFragFull (buf : List (List Pixel)) (ns : ImageFragment) (x y : Nat) : List (List Pixel) :=
  (List.range ns.height).foldl
    (fun b ph =>
      (List.range ns.width).foldl
        (fun b2 pw => setPix b2 (x + pw) (y + ph) (pget ns pw ph)) b)
    buf

/-- Embedding of the per-node write of lines 393-402: nodes on the last grid
column or row write their full pixel block, every other node writes only its
top-left pixel. -/
def writeNode (gridW gridH : Nat) (buf : List (List Pixel)) (ns : ImageFragment) (x y : Nat) : List (List Pixel) :=
  if x + 1 = gridW ∨ y + 1 = gridH then writeFragFull buf ns x y
  else setPix buf x y (pget ns 0 0)

/-- The background-filled `width × height` output buffer of lines 380-387. -/
def initBuf (width height : Nat) : List (List Pixel) :=
  (List.range width).map fun _ => (List.range height).map fun _ => bgPixel

/-- Embedding of the reconstruction loops of lines 389-404: visit every node of
the `(width-(fw-1)) × (height-(fh-1))` grid in source order and perform its
write against the background-filled buffer, `assign` giving the collapsed
fragment of each node. -/
def reconstruct (width height fragment_width fragment_height : Nat) (assign : Nat → Nat → ImageFragment) : List (List Pixel) :=
  (List.range (width - (fragment_width - 1))).foldl
    (fun buf x =>
      (List.range (height - (fragment_height - 1))).foldl
        (fun b y =>
          writeNode (width - (fragment_width - 1)) (height - (fragment_height - 1)) b (assign x y) x y)
        buf)
    (initBuf width height)

/-- A 1×1 fragment holding a single color, used for concrete witnesses. -/
def frag1 (c : Pixel) : ImageFragment := ⟨[[c]], 1, 1⟩

/-- The 2×2 checkerboard sample image with colors `a` and `b` alternating. -/
def checkerboard (a b : Pixel) : SampleImage where
  width := 2
  height := 2
  pix := fun x y => if (x + y) % 2 = 0 then a else b

/-- The proposition that a pixel value equals some pixel of some node's assigned
fragment; reconstruction coverage says every output-buffer cell ends up with such
a value. -/
def IsFragPix (gridW gridH fw fh : Nat) (assign : Nat → Nat → ImageFragment) (c : Pixel) : Prop :=
  ∃ x y pw ph, x < gridW ∧ y < gridH ∧ pw < fw ∧ ph < fh ∧ c = pget (assign x y) pw ph


/-! ### Basic list-access lemmas -/

theorem getD_map_range {α : Type} (n i : Nat) (g : Nat → α) (d : α) (hi : i < n) :
    ((List.range n).map g).getD i d = g i := by
  rw [List.getD_eq_getElem _ _ (by simpa using hi)]
  simp

theorem getD_set {α : Type} (l : List α) (i j : Nat) (a d : α) :
    (l.set i a).getD j d = if i = j ∧ i < l.length then a else l.getD j d := by
  induction l generalizing i j with
  | nil => simp
  | cons x t ih =>
    cases i with
    | zero =>
      cases j with
      | zero => simp
      | succ j => simp
    | succ i =>
      cases j with
      | zero => simp
      | succ j =>
        simp only [List.set, List.getD_cons_succ, List.length_cons]
        rw [ih]
        congr 1
        simp only [eq_iff_iff]
        omega

/-! ### Pointwise description of the fragment operations -/

@[simp]
theorem rotate_width (f : ImageFragment) : f.rotate.width = f.height := rfl

@[simp]
theorem rotate_height (f : ImageFragment) : f.rotate.height = f.width := rfl

@[simp]
theorem flip_width (f : ImageFragment) : f.flip.width = f.width := rfl

@[simp]
theorem flip_height (f : ImageFragment) : f.flip.height = f.height := rfl

theorem mem_intRange {lo hi x : Int} : x ∈ intRange lo hi ↔ lo ≤ x ∧ x < hi := by
  unfold intRange
  simp only [List.mem_map, List.mem_range]
  constructor
  · rintro ⟨i, hlt, rfl⟩
    omega
  · intro hx
    exact ⟨(x - lo).toNat, by omega, by omega⟩

theorem pget_new_from_image (image : SampleImage) (wi hgt fw fh i j : Nat)
    (h1 : i < fw) (h2 : j < fh) :
    pget (ImageFragment.new_from_image image wi hgt fw fh) i j = image.pix (wi + i) (hgt + j) := by
  unfold pget ImageFragment.new_from_image
  simp only
  rw [getD_map_range _ _ _ _ h1, getD_map_range _ _ _ _ h2]

theorem pget_rotate (f : ImageFragment) (i j : Nat) (h1 : i < f.height) (h2 : j < f.width) :
    pget f.rotate i j = pget f j (f.height - 1 - i) := by
  conv_lhs => rw [pget, ImageFragment.rotate]
  rw [getD_map_range _ _ _ _ h1, getD_map_range _ _ _ _ h2]

theorem pget_flip (f : ImageFragment) (i j : Nat) (h1 : i < f.width) (h2 : j < f.height) :
    pget f.flip i j = pget f (f.width - 1 - i) j := by
  conv_lhs => rw [pget, ImageFragment.flip]
  rw [getD_map_range _ _ _ _ h1, getD_map_range _ _ _ _ h2]

theorem rotate_WF (f : ImageFragment) : WF f.rotate := by
  constructor
  · simp [ImageFragment.rotate]
  · intro col hcol
    simp only [ImageFragment.rotate, List.mem_map, List.mem_range] at hcol
    obtain ⟨i, _, rfl⟩ := hcol
    simp [ImageFragment.rotate]

theorem flip_WF (f : ImageFragment) : WF f.flip := by
  constructor
  · simp [ImageFragment.flip]
  · intro col hcol
    simp only [ImageFragment.flip, List.mem_map, List.mem_range] at hcol
    obtain ⟨i, _, rfl⟩ := hcol
    simp [ImageFragment.flip]

theorem new_from_image_WF (image : SampleImage) (wi hgt fw fh : Nat) :
    WF (ImageFragment.new_from_image image wi hgt fw fh) := by
  constructor
  · simp [ImageFragment.new_from_image]
  · intro col hcol
    simp only [ImageFragment.new_from_image, List.mem_map, List.mem_range] at hcol
    obtain ⟨i, _, rfl⟩ := hcol
    simp [ImageFragment.new_from_image]

theorem WF.pixels_eq {f : ImageFragment} (hf : WF f) :
    f.pixels = (List.range f.width).map fun i => (List.range f.height).map fun j => pget f i j := by
  apply List.ext_getElem
  · simp [hf.1]
  · intro i h1 h2
    simp only [List.getElem_map, List.getElem_range]
    apply List.ext_getElem
    · rw [hf.2 _ (List.getElem_mem h1)]
      simp
    · intro j hj1 hj2
      simp only [List.getElem_map, List.getElem_range]
      unfold pget
      rw [List.getD_eq_getElem _ _ h1, List.getD_eq_getElem _ _ hj1]

theorem frag_ext {g f : ImageFragment} (hg : WF g) (hf : WF f)
    (hw : g.width = f.width) (hh : g.height = f.height)
    (hp : ∀ i j, i < f.width → j < f.height → pget g i j = pget f i j) : g = f := by
  have hpix : g.pixels = f.pixels := by
    rw [hg.pixels_eq, hf.pixels_eq, hw, hh]
    apply List.map_congr_left
    intro i hi
    apply List.map_congr_left
    intro j hj
    exact hp i j (List.mem_range.mp hi) (List.mem_range.mp hj)
  cases g
  cases f
  simp_all

theorem pget_rotate_rotate (f : ImageFragment) (i j : Nat) (h1 : i < f.width) (h2 : j < f.height) :
    pget f.rotate.rotate i j = pget f (f.width - 1 - i) (f.height - 1 - j) := by
  rw [pget_rotate f.rotate i j h1 h2]
  simp only [rotate_height, rotate_width]
  rw [pget_rotate f j (f.width - 1 - i) h2 (by omega)]

theorem pget_rotate3 (f : ImageFragment) (i j : Nat) (h1 : i < f.height) (h2 : j < f.width) :
    pget f.rotate.rotate.rotate i j = pget f (f.width - 1 - j) i := by
  rw [pget_rotate f.rotate.rotate i j h1 h2]
  simp only [rotate_height, rotate_width]
  rw [pget_rotate_rotate f j (f.height - 1 - i) h2 (by omega)]
  congr 1
  omega

theorem rotate4_eq (f : ImageFragment) (hf : WF f) :
    f.rotate.rotate.rotate.rotate = f := by
  refine frag_ext (rotate_WF _) hf (by simp) (by simp) ?_
  intro i j h1 h2
  rw [pget_rotate_rotate f.rotate.rotate i j h1 h2]
  simp only [rotate_height, rotate_width]
  rw [pget_rotate_rotate f (f.width - 1 - i) (f.height - 1 - j) (by omega) (by omega)]
  have e1 : f.width - 1 - (f.width - 1 - i) = i := by omega
  have e2 : f.height - 1 - (f.height - 1 - j) = j := by omega
  rw [e1, e2]

theorem flip2_eq (f : ImageFragment) (hf : WF f) :
    f.flip.flip = f := by
  refine frag_ext (flip_WF _) hf (by simp) (by simp) ?_
  intro i j h1 h2
  rw [pget_flip f.flip i j h1 h2]
  simp only [flip_width, flip_height]
  rw [pget_flip f (f.width - 1 - i) j (by omega) h2]
  have e1 : f.width - 1 - (f.width - 1 - i) = i := by omega
  rw [e1]

theorem flip_rotate3 (b : ImageFragment) :
    b.rotate.rotate.rotate.flip = b.flip.rotate := by
  refine frag_ext (flip_WF _) (rotate_WF _) (by simp) (by simp) ?_
  intro i j h1 h2
  have h1' : i < b.height := by simpa using h1
  have h2' : j < b.width := by simpa using h2
  rw [pget_flip b.rotate.rotate.rotate i j h1' h2']
  simp only [rotate_width, rotate_height, flip_width, flip_height]
  rw [pget_rotate3 b (b.height - 1 - i) j (by omega) h2']
  rw [pget_rotate b.flip i j h1' h2']
  simp only [flip_width, flip_height]
  rw [pget_flip b j (b.height - 1 - i) h2' (by omega)]

/-! ### Overlap symmetry -/

theorem is_overlapping_flip_aux (A B : ImageFragment) (hW : A.width = B.width)
    (hH : A.height = B.height) (dx dy : Int)
    (h : A.is_overlapping B dx dy = true) : B.is_overlapping A (-dx) (-dy) = true := by
  have hW' : (A.width : Int) = B.width := by exact_mod_cast hW
  have hH' : (A.height : Int) = B.height := by exact_mod_cast hH
  rw [ImageFragment.is_overlapping, List.all_eq_true] at h
  rw [ImageFragment.is_overlapping, List.all_eq_true]
  intro sh hsh
  rw [List.all_eq_true]
  intro sw hsw
  rw [mem_intRange, max_le_iff, lt_min_iff] at hsh hsw
  rw [decide_eq_true_eq]
  have h1 := h (sh + dy) (by rw [mem_intRange, max_le_iff, lt_min_iff]; omega)
  rw [List.all_eq_true] at h1
  have h2 := h1 (sw + dx) (by rw [mem_intRange, max_le_iff, lt_min_iff]; omega)
  rw [decide_eq_true_eq] at h2
  have e1 : sw + dx - dx = sw := by omega
  have e2 : sh + dy - dy = sh := by omega
  rw [e1, e2] at h2
  have e3 : sw - -dx = sw + dx := by omega
  have e4 : sh - -dy = sh + dy := by omega
  rw [e3, e4]
  exact h2.symm

/-- C1: for fragments of equal width and equal height and any of the four orthogonal
offsets, `is_overlapping(A,B,dx,dy)` returns the same boolean as
`is_overlapping(B,A,-dx,-dy)`. -/
theorem is_overlapping_symm (A B : ImageFragment) (hW : A.width = B.width)
    (hH : A.height = B.height) (dx dy : Int)
    (hoff : (dx, dy) ∈ ([(0, -1), (0, 1), (-1, 0), (1, 0)] : List (Int × Int))) :
    A.is_overlapping B dx dy = B.is_overlapping A (-dx) (-dy) := by
  rw [Bool.eq_iff_iff]
  constructor
  · exact is_overlapping_flip_aux A B hW hH dx dy
  · intro h
    have h2 := is_overlapping_flip_aux B A hW.symm hH.symm (-dx) (-dy) h
    simpa using h2

/-- C1 witness: the symmetry theorem applied to a concrete pair of 1x1 fragments at
offset (1,0). -/
theorem is_overlapping_symm_witness :
    (frag1 bgPixel).width = (frag1 (1, 1, 1, 1)).width ∧
    (frag1 bgPixel).height = (frag1 (1, 1, 1, 1)).height ∧
    ((1, 0) : Int × Int) ∈ ([(0, -1), (0, 1), (-1, 0), (1, 0)] : List (Int × Int)) ∧
    (frag1 bgPixel).is_overlapping (frag1 (1, 1, 1, 1)) 1 0 =
      (frag1 (1, 1, 1, 1)).is_overlapping (frag1 bgPixel) (-1) (-0) :=
  ⟨rfl, rfl, by decide, is_overlapping_symm (frag1 bgPixel) (frag1 (1, 1, 1, 1)) rfl rfl 1 0 (by decide)⟩

/-! ### Rotation and reflection identities (claims C4, C5, C3) -/

/-- C4: for every well-formed fragment, applying `rotate()` four times in succession
yields a fragment structurally equal (pixel-identical, same dimensions) to the
original. -/
theorem rotate_four_ident (f : ImageFragment) (hf : WF f) :
    f.rotate.rotate.rotate.rotate = f := rotate4_eq f hf

/-- C4 witness: the four-fold rotation identity on a concrete 1x2 fragment. -/
theorem rotate_four_ident_witness :
    WF ⟨[[bgPixel, (1, 2, 3, 4)]], 1, 2⟩ ∧
    (⟨[[bgPixel, (1, 2, 3, 4)]], 1, 2⟩ : ImageFragment).rotate.rotate.rotate.rotate =
      ⟨[[bgPixel, (1, 2, 3, 4)]], 1, 2⟩ :=
  ⟨by decide, rotate_four_ident ⟨[[bgPixel, (1, 2, 3, 4)]], 1, 2⟩ (by decide)⟩

/-- C5: for every well-formed fragment, applying `flip()` twice in succession yields
a fragment structurally equal (pixel-identical, same dimensions) to the original. -/
theorem flip_two_ident (f : ImageFragment) (hf : WF f) :
    f.flip.flip = f := flip2_eq f hf

/-- C5 witness: the double-flip identity on a concrete 2x1 fragment. -/
theorem flip_two_ident_witness :
    WF ⟨[[bgPixel], [(1, 2, 3, 4)]], 2, 1⟩ ∧
    (⟨[[bgPixel], [(1, 2, 3, 4)]], 2, 1⟩ : ImageFragment).flip.flip =
      ⟨[[bgPixel], [(1, 2, 3, 4)]], 2, 1⟩ :=
  ⟨by decide, flip_two_ident ⟨[[bgPixel], [(1, 2, 3, 4)]], 2, 1⟩ (by decide)⟩

/-- C3: with both reflection and rotation enabled, the set of orientation variants
inserted into the catalog for a base fragment is exactly the 8-element dihedral
orbit: the base, its three successive rotations, the flipped base, and the three
successive rotations of the flipped base. -/
theorem oriented_variants_dihedral (b : ImageFragment) :
    (orientedList true true b).toFinset =
      {b, b.rotate, b.rotate.rotate, b.rotate.rotate.rotate,
       b.flip, b.flip.rotate, b.flip.rotate.rotate, b.flip.rotate.rotate.rotate} := by
  have h1 : b.rotate.rotate.rotate.flip = b.flip.rotate := flip_rotate3 b
  simp only [orientedList]
  rw [h1, rotate4_eq b.flip (flip_WF b)]
  ext x
  simp [List.toFinset_cons]
  tauto

/-! ### The 2x2 checkerboard end-to-end catalog (claim C2) -/

theorem checkerboard_stream (a b : Pixel) :
    fragmentStream (checkerboard a b) 1 1 false false =
      [frag1 a, frag1 b, frag1 b, frag1 a] := rfl

theorem overlap_vacuous_right (r g : ImageFragment) (hw : r.width = 1) :
    r.is_overlapping g 1 0 = true := by
  unfold ImageFragment.is_overlapping
  rw [List.all_eq_true]
  intro sh _
  rw [List.all_eq_true]
  intro sw hsw
  rw [mem_intRange, max_le_iff, lt_min_iff, hw] at hsw
  exfalso
  omega

/-- C2 counterexample: on the concrete black/white 2x2 checkerboard with 1x1
fragments, the permitted-state list for offset (1,0) rooted at the black fragment
contains the black fragment itself (the overlap region at that offset is empty),
so it does not list only the white fragment. -/
theorem checkerboard_adjacency_counterexample :
    frag1 (0, 0, 0, 255) ≠ frag1 (255, 255, 255, 255) ∧
    frag1 (0, 0, 0, 255) ∈
      permittedStates
        (catalogOf (checkerboard (0, 0, 0, 255) (255, 255, 255, 255)) 1 1 false false)
        (frag1 (0, 0, 0, 255)) 1 0 := by
  decide

/-- C2 (amended): for a 2x2 checkerboard with distinct colors and 1x1 fragments
(orientations disabled), the catalog consists of exactly the two single-color
fragments, each with weight 2; but the adjacency list for offset (1,0) rooted at
either fragment contains the whole catalog (both fragments), because a width-1
fragment has an empty overlap region at horizontal offset 1. -/
theorem checkerboard_catalog_spec (a b : Pixel) (f : ImageFragment) (hab : a ≠ b) :
    (f ∈ catalogOf (checkerboard a b) 1 1 false false ↔ f = frag1 a ∨ f = frag1 b) ∧
    frag1 a ≠ frag1 b ∧
    weightOf (checkerboard a b) 1 1 false false (frag1 a) = 2 ∧
    weightOf (checkerboard a b) 1 1 false false (frag1 b) = 2 ∧
    (f ∈ permittedStates (catalogOf (checkerboard a b) 1 1 false false) (frag1 a) 1 0 ↔
      f = frag1 a ∨ f = frag1 b) ∧
    (f ∈ permittedStates (catalogOf (checkerboard a b) 1 1 false false) (frag1 b) 1 0 ↔
      f = frag1 a ∨ f = frag1 b) := by
  have hfr : frag1 a ≠ frag1 b := by
    intro h
    apply hab
    simpa [frag1] using h
  have hmem : ∀ g : ImageFragment,
      g ∈ catalogOf (checkerboard a b) 1 1 false false ↔ (g = frag1 a ∨ g = frag1 b) := by
    intro g
    rw [catalogOf, List.mem_dedup, checkerboard_stream]
    simp only [List.mem_cons, List.not_mem_nil, or_false]
    tauto
  refine ⟨hmem f, hfr, ?_, ?_, ?_, ?_⟩
  · rw [weightOf, checkerboard_stream]
    simp [List.count_cons, hfr, hfr.symm]
  · rw [weightOf, checkerboard_stream]
    simp [List.count_cons, hfr, hfr.symm]
  · rw [permittedStates, List.mem_filter]
    constructor
    · rintro ⟨hm, _⟩
      exact (hmem f).mp hm
    · intro hor
      exact ⟨(hmem f).mpr hor, overlap_vacuous_right _ _ rfl⟩
  · rw [permittedStates, List.mem_filter]
    constructor
    · rintro ⟨hm, _⟩
      exact (hmem f).mp hm
    · intro hor
      exact ⟨(hmem f).mpr hor, overlap_vacuous_right _ _ rfl⟩

/-- C2 witness: the amended checkerboard theorem applied at concrete black/white
colors, projected to the weight of the black fragment. -/
theorem checkerboard_catalog_spec_witness :
    ((0, 0, 0, 255) : Pixel) ≠ (255, 255, 255, 255) ∧
    weightOf (checkerboard (0, 0, 0, 255) (255, 255, 255, 255)) 1 1 false false
      (frag1 (0, 0, 0, 255)) = 2 :=
  ⟨by decide,
   (checkerboard_catalog_spec (0, 0, 0, 255) (255, 255, 255, 255)
      (frag1 (0, 0, 0, 255)) (by decide)).2.2.1⟩

/-! ### Constraint-set offsets (claim C6) -/

/-- C6: every node state collection built by the constraint loops is keyed by an
offset with |dx|+|dy| = 1, i.e. an orthogonal unit offset; none exists for the
center offset (0,0) or any diagonal offset. -/
theorem collection_offsets_orthogonal (catalog : List ImageFragment)
    (c : ImageFragment × (Int × Int) × List ImageFragment)
    (hc : c ∈ nodeStateCollections catalog) :
    c.2.1.1.natAbs + c.2.1.2.natAbs = 1 := by
  rw [nodeStateCollections, List.mem_flatMap] at hc
  obtain ⟨root, _, hmap⟩ := hc
  rw [List.mem_map] at hmap
  obtain ⟨off, hoff, rfl⟩ := hmap
  have he : offsetList = [(-1, 0), (0, -1), (0, 1), (1, 0)] := by decide
  rw [he] at hoff
  simp only [List.mem_cons, List.not_mem_nil, or_false] at hoff
  rcases hoff with rfl | rfl | rfl | rfl <;> rfl

/-- C6 witness: the offset theorem applied to a concrete collection built from a
one-fragment catalog. -/
theorem collection_offsets_orthogonal_witness :
    (frag1 bgPixel, ((-1 : Int), (0 : Int)), [frag1 bgPixel]) ∈
      nodeStateCollections [frag1 bgPixel] ∧
    ((-1 : Int).natAbs + (0 : Int).natAbs = 1) :=
  ⟨by decide,
   collection_offsets_orthogonal [frag1 bgPixel]
     (frag1 bgPixel, ((-1 : Int), (0 : Int)), [frag1 bgPixel]) (by decide)⟩

/-! ### Ground partitioning (claim C7) -/

/-- C7: with ground mode enabled, a node on the last grid row keeps exactly the
weighted fragments in the ground set, a node on any other row keeps exactly those
outside the ground set, and no weighted fragment is kept by both. -/
theorem ground_partition (weights : List (ImageFragment × Nat)) (ground : List ImageFragment)
    (grid_height ylast yother : Nat) (p : ImageFragment × Nat)
    (hlast : ylast + 1 = grid_height) (hother : yother + 1 ≠ grid_height) :
    (p ∈ nodeCandidates weights ground true grid_height ylast ↔ p ∈ weights ∧ p.1 ∈ ground) ∧
    (p ∈ nodeCandidates weights ground true grid_height yother ↔ p ∈ weights ∧ p.1 ∉ ground) ∧
    ¬(p ∈ nodeCandidates weights ground true grid_height ylast ∧
      p ∈ nodeCandidates weights ground true grid_height yother) := by
  simp only [nodeCandidates, hlast, if_pos, if_neg hother, List.mem_filter,
    decide_eq_true_eq]
  tauto

/-- C7 witness: the partition theorem on a concrete two-fragment weight map with a
one-fragment ground set and a two-row grid. -/
theorem ground_partition_witness :
    (1 : Nat) + 1 = 2 ∧ (0 : Nat) + 1 ≠ 2 ∧
    ((frag1 bgPixel, 2) ∈
        nodeCandidates [(frag1 bgPixel, 2), (frag1 (1, 1, 1, 1), 3)] [frag1 bgPixel] true 2 1 ↔
      (frag1 bgPixel, 2) ∈ [(frag1 bgPixel, 2), (frag1 (1, 1, 1, 1), 3)] ∧
        frag1 bgPixel ∈ [frag1 bgPixel]) :=
  ⟨rfl, by decide,
   (ground_partition [(frag1 bgPixel, 2), (frag1 (1, 1, 1, 1), 3)] [frag1 bgPixel]
      2 1 0 (frag1 bgPixel, 2) rfl (by decide)).1⟩

/-! ### Periodic and open boundary wiring (claim C8) -/

/-- C8: with periodic mode enabled, a node on a boundary grid column or row is
wired, for the outward orthogonal offset, to the node on the opposite boundary;
with periodic mode disabled, that neighbor is omitted.  Stated for all four
boundary directions of a node grid of size gridW x gridH. -/
theorem boundary_wiring (gridW gridH x y : Int)
    (hx : 0 ≤ x ∧ x < gridW) (hy : 0 ≤ y ∧ y < gridH) :
    (neighborIndex true gridW gridH 0 y (-1) 0 = some (gridW - 1, y)) ∧
    (neighborIndex false gridW gridH 0 y (-1) 0 = none) ∧
    (neighborIndex true gridW gridH (gridW - 1) y 1 0 = some (0, y)) ∧
    (neighborIndex false gridW gridH (gridW - 1) y 1 0 = none) ∧
    (neighborIndex true gridW gridH x 0 0 (-1) = some (x, gridH - 1)) ∧
    (neighborIndex false gridW gridH x 0 0 (-1) = none) ∧
    (neighborIndex true gridW gridH x (gridH - 1) 0 1 = some (x, 0)) ∧
    (neighborIndex false gridW gridH x (gridH - 1) 0 1 = none) := by
  unfold neighborIndex wrapIndex
  simp only
  refine ⟨?_, ?_, ?_, ?_, ?_, ?_, ?_, ?_⟩ <;>
    · split_ifs <;> simp_all <;> omega

/-- C8 witness: the boundary wiring theorem on a concrete 2x3 node grid at node
(1,2). -/
theorem boundary_wiring_witness :
    ((0 : Int) ≤ 1 ∧ (1 : Int) < 2) ∧ ((0 : Int) ≤ 2 ∧ (2 : Int) < 3) ∧
    neighborIndex true 2 3 0 2 (-1) 0 = some (2 - 1, 2) ∧
    neighborIndex false 2 3 0 2 (-1) 0 = none :=
  ⟨by decide, by decide,
   (boundary_wiring 2 3 1 2 (by decide) (by decide)).1,
   (boundary_wiring 2 3 1 2 (by decide) (by decide)).2.1⟩

/-! ### Fold invariants for the output buffer -/

theorem foldl_pres {α β : Type} {f : β → α → β} {P : β → Prop}
    (l : List α) : ∀ init : β, (∀ b a, a ∈ l → P b → P (f b a)) → P init → P (l.foldl f init) := by
  induction l with
  | nil =>
    intro init _ hinit
    exact hinit
  | cons x t ih =>
    intro init hstep hinit
    exact ih (f init x) (fun b a ha hb => hstep b a (List.mem_cons_of_mem x ha) hb)
      (hstep init x (List.mem_cons_self x t) hinit)

theorem foldl_estab {α β : Type} {f : β → α → β} {P I : β → Prop}
    (l : List α) : ∀ (init : β) (a : α), a ∈ l →
      (∀ b x, x ∈ l → I b → I (f b x)) →
      (∀ b, I b → P (f b a)) →
      (∀ b x, x ∈ l → P b → P (f b x)) →
      I init → P (l.foldl f init) := by
  induction l with
  | nil =>
    intro _ a ha
    exact absurd ha (List.not_mem_nil a)
  | cons x t ih =>
    intro init a ha hinv hest hpres hI
    rcases List.mem_cons.mp ha with rfl | hat
    · exact foldl_pres t (f init a)
        (fun b z hz hb => hpres b z (List.mem_cons_of_mem a hz) hb)
        (hest init hI)
    · exact ih (f init x) a hat
        (fun b z hz hb => hinv b z (List.mem_cons_of_mem x hz) hb)
        hest
        (fun b z hz hb => hpres b z (List.mem_cons_of_mem x hz) hb)
        (hinv init x (List.mem_cons_self x t) hI)

theorem getPix_setPix (buf : List (List Pixel)) (w h cx cy : Nat) (c : Pixel) :
    getPix (setPix buf w h c) cx cy =
      if w = cx ∧ w < buf.length ∧ h = cy ∧ h < (buf.getD w []).length then c
      else getPix buf cx cy := by
  unfold getPix setPix
  rw [getD_set]
  split_ifs with h1 h2 h3
  · obtain ⟨rfl, hlen⟩ := h1
    rw [getD_set, if_pos ⟨h2.2.2.1, h2.2.2.2⟩]
  · obtain ⟨rfl, hlen⟩ := h1
    rw [getD_set, if_neg (fun hcon => h2 ⟨rfl, hlen, hcon.1, hcon.2⟩)]
  · exact absurd ⟨h3.1, h3.2.1⟩ h1
  · rfl

theorem setPix_WF {W H : Nat} {buf : List (List Pixel)} (hbuf : BufWF buf W H)
    (w h : Nat) (c : Pixel) : BufWF (setPix buf w h c) W H := by
  obtain ⟨hlen, hcols⟩ := hbuf
  constructor
  · rw [setPix, List.length_set, hlen]
  · intro i hi
    rw [setPix, getD_set]
    split_ifs with hcond
    · obtain ⟨rfl, _⟩ := hcond
      rw [List.length_set]
      exact hcols w hi
    · exact hcols i hi

theorem getPix_setPix_self {W H : Nat} {buf : List (List Pixel)} (hbuf : BufWF buf W H)
    (w h : Nat) (hw : w < W) (hh : h < H) (c : Pixel) :
    getPix (setPix buf w h c) w h = c := by
  rw [getPix_setPix,
    if_pos ⟨rfl, by rw [hbuf.1]; exact hw, rfl, by rw [hbuf.2 w hw]; exact hh⟩]

theorem writeFragFull_WF {W H : Nat} {buf : List (List Pixel)} (hbuf : BufWF buf W H)
    (ns : ImageFragment) (x y : Nat) : BufWF (writeFragFull buf ns x y) W H := by
  unfold writeFragFull
  refine foldl_pres (P := fun b => BufWF b W H) _ _ ?_ hbuf
  intro b ph _ hb
  refine foldl_pres (P := fun b2 => BufWF b2 W H) _ _ ?_ hb
  intro b2 pw _ hb2
  exact setPix_WF hb2 _ _ _

theorem writeNode_WF {W H : Nat} {buf : List (List Pixel)} (hbuf : BufWF buf W H)
    (gridW gridH : Nat) (ns : ImageFragment) (x y : Nat) :
    BufWF (writeNode gridW gridH buf ns x y) W H := by
  unfold writeNode
  split_ifs
  · exact writeFragFull_WF hbuf ns x y
  · exact setPix_WF hbuf x y _

theorem init_BufWF (width height : Nat) : BufWF (initBuf width height) width height := by
  constructor
  · simp [initBuf]
  · intro i hi
    unfold initBuf
    rw [getD_map_range _ _ _ _ hi]
    simp

theorem getPix_writeFragFull {W H : Nat} {buf : List (List Pixel)} (hbuf : BufWF buf W H)
    (ns : ImageFragment) (x y pw ph : Nat)
    (hpw : pw < ns.width) (hph : ph < ns.height) (hx : x + pw < W) (hy : y + ph < H) :
    getPix (writeFragFull buf ns x y) (x + pw) (y + ph) = pget ns pw ph := by
  unfold writeFragFull
  refine foldl_estab (P := fun b => getPix b (x + pw) (y + ph) = pget ns pw ph)
    (I := fun b => BufWF b W H) (List.range ns.height) buf ph (List.mem_range.mpr hph)
    ?_ ?_ ?_ hbuf
  · intro b z _ hb
    refine foldl_pres (P := fun b2 => BufWF b2 W H) _ _ ?_ hb
    intro b2 pw2 _ hb2
    exact setPix_WF hb2 _ _ _
  · intro b hI
    refine foldl_estab (P := fun b2 => getPix b2 (x + pw) (y + ph) = pget ns pw ph)
      (I := fun b2 => BufWF b2 W H) (List.range ns.width) b pw (List.mem_range.mpr hpw)
      ?_ ?_ ?_ hI
    · intro b2 z _ hb2
      exact setPix_WF hb2 _ _ _
    · intro b2 hI2
      exact getPix_setPix_self hI2 _ _ hx hy _
    · intro b2 pw2 _ hb2
      rw [getPix_setPix]
      split_ifs with hcond
      · obtain ⟨he1, -, -, -⟩ := hcond
        have hpe : pw2 = pw := by omega
        rw [hpe]
      · exact hb2
  · intro b ph2 _ hb
    refine foldl_pres (P := fun b2 => getPix b2 (x + pw) (y + ph) = pget ns pw ph) _ _ ?_ hb
    intro b2 pw2 _ hb2
    rw [getPix_setPix]
    split_ifs with hcond
    · obtain ⟨he1, -, he2, -⟩ := hcond
      have hpe : pw2 = pw := by omega
      have hpe2 : ph2 = ph := by omega
      rw [hpe, hpe2]
    · exact hb2

/-! ### Reconstruction writes (claims C9, C10) -/

/-- C9: during reconstruction, a node on the last grid column or row writes its
chosen fragment's full pixel block at its origin, while every other node writes
only the chosen fragment's top-left pixel at its own coordinate and leaves every
other buffer cell unchanged. -/
theorem write_node_spec (gridW gridH W H : Nat) (buf : List (List Pixel))
    (hbuf : BufWF buf W H) (ns : ImageFragment) (x y : Nat) :
    ((x + 1 = gridW ∨ y + 1 = gridH) →
      ∀ pw ph, pw < ns.width → ph < ns.height → x + pw < W → y + ph < H →
        getPix (writeNode gridW gridH buf ns x y) (x + pw) (y + ph) = pget ns pw ph) ∧
    (¬(x + 1 = gridW ∨ y + 1 = gridH) →
      (x < W → y < H → getPix (writeNode gridW gridH buf ns x y) x y = pget ns 0 0) ∧
      (∀ cx cy : Nat, ¬(cx = x ∧ cy = y) →
        getPix (writeNode gridW gridH buf ns x y) cx cy = getPix buf cx cy)) := by
  constructor
  · intro hcond pw ph hpw hph hx hy
    rw [writeNode, if_pos hcond]
    exact getPix_writeFragFull hbuf ns x y pw ph hpw hph hx hy
  · intro hcond
    rw [writeNode, if_neg hcond]
    constructor
    · intro hx hy
      exact getPix_setPix_self hbuf x y hx hy _
    · intro cx cy hne
      rw [getPix_setPix, if_neg]
      intro hcon
      exact hne ⟨hcon.1.symm, hcon.2.2.1.symm⟩

/-- C9 witness: the per-node write theorem on a concrete 2x2 buffer: node (1,0) of
a 2x2 node grid is on the last column, so its full 1x1 block lands at (1,0). -/
theorem write_node_spec_witness :
    BufWF [[bgPixel, bgPixel], [bgPixel, bgPixel]] 2 2 ∧
    getPix (writeNode 2 2 [[bgPixel, bgPixel], [bgPixel, bgPixel]] (frag1 (9, 9, 9, 9)) 1 0)
      (1 + 0) (0 + 0) = pget (frag1 (9, 9, 9, 9)) 0 0 :=
  ⟨by decide,
   (write_node_spec 2 2 2 2 [[bgPixel, bgPixel], [bgPixel, bgPixel]] (by decide)
      (frag1 (9, 9, 9, 9)) 1 0).1 (Or.inl rfl) 0 0 (by decide) (by decide) (by decide) (by decide)⟩

theorem writeNode_pres_fragPix (gridW gridH fw fh : Nat) (assign : Nat → Nat → ImageFragment)
    (hfw : 1 ≤ fw) (hfh : 1 ≤ fh)
    (hassign : ∀ u v : Nat, (assign u v).width = fw ∧ (assign u v).height = fh)
    (x y : Nat) (hx : x < gridW) (hy : y < gridH) (px py : Nat) (buf : List (List Pixel))
    (hb : IsFragPix gridW gridH fw fh assign (getPix buf px py)) :
    IsFragPix gridW gridH fw fh assign
      (getPix (writeNode gridW gridH buf (assign x y) x y) px py) := by
  rw [writeNode]
  split_ifs with hcond
  · unfold writeFragFull
    refine foldl_pres (P := fun b => IsFragPix gridW gridH fw fh assign (getPix b px py))
      _ _ ?_ hb
    intro b ph hph hbP
    refine foldl_pres (P := fun b2 => IsFragPix gridW gridH fw fh assign (getPix b2 px py))
      _ _ ?_ hbP
    intro b2 pw hpw hb2
    rw [getPix_setPix]
    split_ifs with hwrite
    · have hpwf : pw < fw := by
        have hm := List.mem_range.mp hpw
        rw [(hassign x y).1] at hm
        exact hm
      have hphf : ph < fh := by
        have hm := List.mem_range.mp hph
        rw [(hassign x y).2] at hm
        exact hm
      exact ⟨x, y, pw, ph, hx, hy, hpwf, hphf, rfl⟩
    · exact hb2
  · rw [getPix_setPix]
    split_ifs with hwrite
    · exact ⟨x, y, 0, 0, hx, hy, hfw, hfh, rfl⟩
    · exact hb

theorem writeNode_estab_fragPix (width height fw fh : Nat) (assign : Nat → Nat → ImageFragment)
    (hfw : 1 ≤ fw) (hfh : 1 ≤ fh) (hw : fw ≤ width) (hh : fh ≤ height)
    (hassign : ∀ u v : Nat, (assign u v).width = fw ∧ (assign u v).height = fh)
    (px py : Nat) (hpx : px < width) (hpy : py < height)
    (buf : List (List Pixel)) (hbuf : BufWF buf width height) :
    IsFragPix (width - (fw - 1)) (height - (fh - 1)) fw fh assign
      (getPix (writeNode (width - (fw - 1)) (height - (fh - 1)) buf
        (assign (min px (width - (fw - 1) - 1)) (min py (height - (fh - 1) - 1)))
        (min px (width - (fw - 1) - 1)) (min py (height - (fh - 1) - 1))) px py) := by
  set gridW := width - (fw - 1) with hgW
  set gridH := height - (fh - 1) with hgH
  set x0 := min px (gridW - 1) with hx0
  set y0 := min py (gridH - 1) with hy0
  have hgW1 : 1 ≤ gridW := by omega
  have hgH1 : 1 ≤ gridH := by omega
  have hx0lt : x0 < gridW := by omega
  have hy0lt : y0 < gridH := by omega
  by_cases hint : px + 1 < gridW ∧ py + 1 < gridH
  · have hex : x0 = px := by omega
    have hey : y0 = py := by omega
    rw [writeNode, if_neg (by omega), hex, hey,
      getPix_setPix_self hbuf px py hpx hpy]
    exact ⟨px, py, 0, 0, by omega, by omega, hfw, hfh, rfl⟩
  · have hcond : x0 + 1 = gridW ∨ y0 + 1 = gridH := by omega
    rw [writeNode, if_pos hcond]
    have hpwlt : px - x0 < fw := by omega
    have hphlt : py - y0 < fh := by omega
    have hblock := getPix_writeFragFull hbuf (assign x0 y0) x0 y0 (px - x0) (py - y0)
      (by rw [(hassign x0 y0).1]; exact hpwlt) (by rw [(hassign x0 y0).2]; exact hphlt)
      (by omega) (by omega)
    have hxe : x0 + (px - x0) = px := by omega
    have hye : y0 + (py - y0) = py := by omega
    rw [hxe, hye] at hblock
    rw [hblock]
    exact ⟨x0, y0, px - x0, py - y0, hx0lt, hy0lt, hpwlt, hphlt, rfl⟩

/-- C10: after reconstruction on a complete assignment of well-sized fragments,
every cell of the output buffer holds some node's chosen-fragment pixel: the
background fill survives at no in-range coordinate unless that value occurs
inside a chosen fragment. -/
theorem reconstruct_covered (width height fw fh : Nat) (assign : Nat → Nat → ImageFragment)
    (hfw : 1 ≤ fw) (hw : fw ≤ width) (hfh : 1 ≤ fh) (hh : fh ≤ height)
    (hassign : ∀ u v : Nat, (assign u v).width = fw ∧ (assign u v).height = fh)
    (px py : Nat) (hpx : px < width) (hpy : py < height) :
    ∃ x y pw ph, x < width - (fw - 1) ∧ y < height - (fh - 1) ∧ pw < fw ∧ ph < fh ∧
      getPix (reconstruct width height fw fh assign) px py = pget (assign x y) pw ph := by
  have hmain : IsFragPix (width - (fw - 1)) (height - (fh - 1)) fw fh assign
      (getPix (reconstruct width height fw fh assign) px py) := by
    unfold reconstruct
    refine foldl_estab
      (P := fun b => IsFragPix (width - (fw - 1)) (height - (fh - 1)) fw fh assign (getPix b px py))
      (I := fun b => BufWF b width height)
      _ _ (min px (width - (fw - 1) - 1)) (List.mem_range.mpr (by omega)) ?_ ?_ ?_
      (init_BufWF width height)
    · intro b z _ hbWF
      refine foldl_pres (P := fun b2 => BufWF b2 width height) _ _ ?_ hbWF
      intro b2 z2 _ hb2
      exact writeNode_WF hb2 _ _ _ _ _
    · intro b hbWF
      refine foldl_estab
        (P := fun b2 => IsFragPix (width - (fw - 1)) (height - (fh - 1)) fw fh assign (getPix b2 px py))
        (I := fun b2 => BufWF b2 width height)
        _ _ (min py (height - (fh - 1) - 1)) (List.mem_range.mpr (by omega)) ?_ ?_ ?_ hbWF
      · intro b2 z _ hb2
        exact writeNode_WF hb2 _ _ _ _ _
      · intro b2 hb2
        exact writeNode_estab_fragPix width height fw fh assign hfw hfh hw hh hassign
          px py hpx hpy b2 hb2
      · intro b2 z hz hb2
        exact writeNode_pres_fragPix _ _ fw fh assign hfw hfh hassign _ _
          (by omega) (List.mem_range.mp hz) px py b2 hb2
    · intro b z hz hb
      refine foldl_pres
        (P := fun b2 => IsFragPix (width - (fw - 1)) (height - (fh - 1)) fw fh assign (getPix b2 px py))
        _ _ ?_ hb
      intro b2 z2 hz2 hb2
      exact writeNode_pres_fragPix _ _ fw fh assign hfw hfh hassign _ _
        (List.mem_range.mp hz) (List.mem_range.mp hz2) px py b2 hb2
  exact hmain

/-- C10 witness: reconstruction coverage on a concrete 1x1 output with a single
1x1 fragment assigned everywhere. -/
theorem reconstruct_covered_witness :
    (1 : Nat) ≤ 1 ∧ (0 : Nat) < 1 ∧
    ∃ x y pw ph, x < 1 - (1 - 1) ∧ y < 1 - (1 - 1) ∧ pw < 1 ∧ ph < 1 ∧
      getPix (reconstruct 1 1 1 1 fun _ _ => frag1 (7, 7, 7, 7)) 0 0 =
        pget (frag1 (7, 7, 7, 7)) pw ph :=
  ⟨le_refl 1, Nat.zero_lt_one,
   reconstruct_covered 1 1 1 1 (fun _ _ => frag1 (7, 7, 7, 7)) (le_refl 1) (le_refl 1)
     (le_refl 1) (le_refl 1) (fun _ _ => ⟨rfl, rfl⟩) 0 0 Nat.zero_lt_one Nat.zero_lt_one⟩
